import Mathlib

/-!
Verification of `cdxj_to_zipnum.py` (CDXJ → ZipNum sharded index converter).

We embed the program shallowly:

* input byte streams are `List Nat` (each element one byte);
* Python's binary-file line iteration is `splitLines`;
* `stream_chunks_from_input` (the chunk assembler generator) is modelled
  line-for-line, including its `len(chunk) >= chunk_size` test on an `Int`
  chunk size;
* `extract_prejson` is modelled over a faithful UTF-8
  decode-with-replacement (`decodeU`, CPython `errors='replace'`
  maximal-subpart semantics), Python `str.rstrip('\r\n')` and `str.strip()`;
* the main loop of `cdxj_to_zipnum` is a fold of `processChunk` over the
  chunk list, with the real shard-rollover, idx-batching (batch size 100),
  final-flush, single-shard-rename and `.loc`-emission steps.  `gzip.compress`
  is an abstract parameter (`Config.compress`); `gzip` roundtrip facts are taken
  as hypotheses where a claim needs them.

Text (shard names, idx records) is modelled as `List Char` so that all
definitions compute by kernel reduction.
-/

namespace CdxjZipnum

/-- One byte of the input stream. -/
abbrev Byte := Nat

/-- One input line: raw bytes, terminator included. -/
abbrev Line := List Byte

/-- Decoded text (Python `str`), as a list of characters. -/
abbrev Str := List Char

/-! ### Python binary-file line iteration

`for line in fh` over a binary file splits after every `\n` (byte 10),
keeping the terminator; a trailing fragment without terminator is still
yielded. -/

/-- Split a byte stream into lines the way Python binary-file iteration does. -/
def splitLines : List Byte → List Line
  | [] => []
  | b :: rest =>
    if b = 10 then [10] :: splitLines rest
    else
      match splitLines rest with
      | [] => [[b]]
      | l :: ls => (b :: l) :: ls

theorem join_splitLines (bs : List Byte) : (splitLines bs).flatten = bs := by
  induction bs with
  | nil => rfl
  | cons b rest ih =>
    by_cases hb : b = 10
    · simp [splitLines, hb] at ih ⊢
      exact ih
    · simp only [splitLines, hb, if_false]
      cases hr : splitLines rest with
      | nil => simp [hr] at ih; simp [ih]
      | cons l ls => rw [hr] at ih; simpa using ih

theorem splitLines_eq_nil_iff (bs : List Byte) : splitLines bs = [] ↔ bs = [] := by
  cases bs with
  | nil => simp [splitLines]
  | cons b rest =>
    simp only [splitLines]
    constructor
    · intro h
      by_cases hb : b = 10
      · simp [hb] at h
      · simp only [hb, if_false] at h
        cases hr : splitLines rest <;> simp [hr] at h
    · intro h; exact absurd h (by simp)

/-! ### Chunk assembler: `stream_chunks_from_input`

```python
chunk = []
chunk_idx = 0
for line in fh:
    chunk.append(line)
    if len(chunk) >= chunk_size:
        yield (chunk_idx, chunk); chunk_idx += 1; chunk = []
if chunk:
    yield (chunk_idx, chunk)
```
The chunk indices are never used by the caller, so we model the yielded
chunk lists only.  `chunk_size` is an `Int`: argparse accepts any integer. -/

/-- The generator loop of `stream_chunks_from_input`, with the pending
pending chunk as accumulator. -/
def streamChunksAux (chunkSize : Int) : List Line → List Line → List (List Line)
  | chunk, [] => if chunk = [] then [] else [chunk]
  | chunk, l :: rest =>
    let chunk' := chunk ++ [l]
    if (chunk'.length : Int) ≥ chunkSize then
      chunk' :: streamChunksAux chunkSize [] rest
    else
      streamChunksAux chunkSize chunk' rest

/-- The generator `stream_chunks_from_input`, applied to the line list of the input. -/
def stream_chunks_from_input (lines : List Line) (chunkSize : Int) : List (List Line) :=
  streamChunksAux chunkSize [] lines

theorem join_streamChunksAux (chunkSize : Int) (acc : List Line) (ls : List Line) :
    (streamChunksAux chunkSize acc ls).flatten = acc ++ ls := by
  induction ls generalizing acc with
  | nil =>
    by_cases h : acc = [] <;> simp [streamChunksAux, h]
  | cons l rest ih =>
    simp only [streamChunksAux]
    split
    · simp [ih]
    · simp [ih]

/-- Chunking loses and reorders nothing: the chunks concatenate back to the
input line sequence (for every `chunkSize`, even nonpositive ones). -/
theorem join_stream_chunks (lines : List Line) (chunkSize : Int) :
    (stream_chunks_from_input lines chunkSize).flatten = lines := by
  simpa using join_streamChunksAux chunkSize [] lines

theorem streamChunksAux_ne_nil_mem (chunkSize : Int) (acc ls : List Line) :
    ∀ ch ∈ streamChunksAux chunkSize acc ls, ch ≠ [] := by
  induction ls generalizing acc with
  | nil =>
    intro ch hch
    by_cases h : acc = [] <;> simp [streamChunksAux, h] at hch
    · rcases hch with rfl; exact h
  | cons l rest ih =>
    intro ch hch
    simp only [streamChunksAux] at hch
    split at hch
    · rcases List.mem_cons.mp hch with rfl | hch
      · simp
      · exact ih [] ch hch
    · exact ih (acc ++ [l]) ch hch

/-- Every produced chunk is nonempty. -/
theorem stream_chunks_ne_nil (lines : List Line) (chunkSize : Int) :
    ∀ ch ∈ stream_chunks_from_input lines chunkSize, ch ≠ [] :=
  streamChunksAux_ne_nil_mem chunkSize [] lines

theorem streamChunksAux_length (k : Nat) (hk : 0 < k) (ls : List Line) :
    ∀ acc : List Line, acc.length < k →
      (streamChunksAux (k : Int) acc ls).length = (acc.length + ls.length + k - 1) / k := by
  induction ls with
  | nil =>
    intro acc hacc
    by_cases h : acc = []
    · subst h
      simp [streamChunksAux, Nat.div_eq_of_lt (by omega : k - 1 < k)]
    · have h1 : 1 ≤ acc.length := by
        cases acc with
        | nil => exact absurd rfl h
        | cons a as => simp
      simp only [streamChunksAux, if_neg h, List.length_singleton, List.length_nil]
      have h2 : acc.length + 0 + k - 1 = (acc.length - 1) + 1 * k := by omega
      rw [h2, Nat.add_mul_div_right _ _ hk, Nat.div_eq_of_lt (by omega)]
  | cons l rest ih =>
    intro acc hacc
    simp only [streamChunksAux]
    by_cases h : (((acc ++ [l]).length : Int) ≥ (k : Int))
    · have h' : k ≤ acc.length + 1 := by
        have := h
        simp only [List.length_append, List.length_singleton] at this
        exact_mod_cast this
      have hk2 : acc.length + 1 = k := by omega
      rw [if_pos h, List.length_cons, ih [] (by simpa using hk)]
      have hLc : (l :: rest).length = rest.length + 1 := List.length_cons l rest
      have h3 : acc.length + (l :: rest).length + k - 1 = (([] : List Line).length + rest.length + k - 1) + k := by
        simp only [List.length_cons, List.length_nil]
        omega
      rw [h3, Nat.add_div_right _ hk]
    · have h' : acc.length + 1 < k := by
        have := h
        simp only [List.length_append, List.length_singleton, ge_iff_le, not_le] at this
        exact_mod_cast this
      rw [if_neg h, ih (acc ++ [l]) (by simpa using h')]
      have h4 : (acc ++ [l]).length + rest.length + k - 1
          = acc.length + (l :: rest).length + k - 1 := by
        simp only [List.length_append, List.length_singleton, List.length_cons, List.length_nil]
        omega
      rw [h4]

/-- Number of chunks is `ceil(total_lines / chunk_size)` for positive chunk sizes. -/
theorem stream_chunks_length (lines : List Line) (cs : Int) (h : 0 < cs) :
    (stream_chunks_from_input lines cs).length =
      (lines.length + cs.toNat - 1) / cs.toNat := by
  obtain ⟨k, rfl⟩ : ∃ k : Nat, cs = (k : Int) := ⟨cs.toNat, (Int.toNat_of_nonneg h.le).symm⟩
  have hk : 0 < k := by exact_mod_cast h
  rw [stream_chunks_from_input, streamChunksAux_length k hk lines [] (by simpa using hk)]
  simp

/-! ### UTF-8 decoding with replacement

`line_bytes.decode('utf-8', errors='replace')`: CPython replaces each
maximal invalid subpart with U+FFFD and continues at the first byte not
consumed.  Lead-byte-dependent first-continuation ranges (E0/ED/F0/F4) are
modelled exactly. -/

/-- The replacement character U+FFFD. -/
def repl : Char := Char.ofNat 0xFFFD

/-- Lower bound of the first continuation byte for a given lead byte. -/
def cont1Lo (b : Nat) : Nat :=
  if b = 0xE0 then 0xA0 else if b = 0xF0 then 0x90 else 0x80

/-- Upper bound of the first continuation byte for a given lead byte. -/
def cont1Hi (b : Nat) : Nat :=
  if b = 0xED then 0x9F else if b = 0xF4 then 0x8F else 0xBF

/-- Decoder loop.  `fuel` only makes the recursion structural: every step
consumes at least one input byte and one fuel unit, so with
`fuel = length` the `0, _ :: _` case is unreachable. -/
def decodeUGo : Nat → List Byte → List Char
  | _, [] => []
  | 0, _ :: _ => []
  | fuel + 1, b :: rest =>
    if b < 0x80 then Char.ofNat b :: decodeUGo fuel rest
    else if b < 0xC2 then repl :: decodeUGo fuel rest
    else if b < 0xE0 then
      match rest with
      | c1 :: rest1 =>
        if 0x80 ≤ c1 ∧ c1 ≤ 0xBF then
          Char.ofNat ((b - 0xC0) * 64 + (c1 - 0x80)) :: decodeUGo fuel rest1
        else repl :: decodeUGo fuel (c1 :: rest1)
      | [] => [repl]
    else if b < 0xF0 then
      match rest with
      | c1 :: rest1 =>
        if cont1Lo b ≤ c1 ∧ c1 ≤ cont1Hi b then
          match rest1 with
          | c2 :: rest2 =>
            if 0x80 ≤ c2 ∧ c2 ≤ 0xBF then
              Char.ofNat ((b - 0xE0) * 4096 + (c1 - 0x80) * 64 + (c2 - 0x80))
                :: decodeUGo fuel rest2
            else repl :: decodeUGo fuel (c2 :: rest2)
          | [] => [repl]
        else repl :: decodeUGo fuel (c1 :: rest1)
      | [] => [repl]
    else if b < 0xF5 then
      match rest with
      | c1 :: rest1 =>
        if cont1Lo b ≤ c1 ∧ c1 ≤ cont1Hi b then
          match rest1 with
          | c2 :: rest2 =>
            if 0x80 ≤ c2 ∧ c2 ≤ 0xBF then
              match rest2 with
              | c3 :: rest3 =>
                if 0x80 ≤ c3 ∧ c3 ≤ 0xBF then
                  Char.ofNat ((b - 0xF0) * 262144 + (c1 - 0x80) * 4096
                    + (c2 - 0x80) * 64 + (c3 - 0x80)) :: decodeUGo fuel rest3
                else repl :: decodeUGo fuel (c3 :: rest3)
              | [] => [repl]
            else repl :: decodeUGo fuel (c2 :: rest2)
          | [] => [repl]
        else repl :: decodeUGo fuel (c1 :: rest1)
      | [] => [repl]
    else repl :: decodeUGo fuel rest

/-- Decode a UTF-8 byte sequence, replacing each maximal invalid subpart by
U+FFFD (the behavior of Python's `errors='replace'`). -/
def decodeU (bs : List Byte) : List Char := decodeUGo bs.length bs

/-! ### Python string helpers -/

/-- The characters stripped by Python's `str.strip()`: CPython's full
Unicode whitespace set (`Py_UNICODE_ISSPACE`): `\t\n\v\f\r` (U+0009-U+000D),
the separators U+001C-U+001F, space, NEL U+0085, NBSP U+00A0, Ogham space
U+1680, the U+2000-U+200A spaces, line/paragraph separators U+2028/U+2029,
narrow NBSP U+202F, medium mathematical space U+205F, and ideographic space
U+3000. -/
def isPySpace (c : Char) : Bool :=
  decide ((9 ≤ c.toNat ∧ c.toNat ≤ 13) ∨ (28 ≤ c.toNat ∧ c.toNat ≤ 31)
    ∨ c.toNat = 32 ∨ c.toNat = 0x85 ∨ c.toNat = 0xA0 ∨ c.toNat = 0x1680
    ∨ (0x2000 ≤ c.toNat ∧ c.toNat ≤ 0x200A) ∨ c.toNat = 0x2028 ∨ c.toNat = 0x2029
    ∨ c.toNat = 0x202F ∨ c.toNat = 0x205F ∨ c.toNat = 0x3000)

/-- Python `str.rstrip('\r\n')`: drop trailing CR/LF characters. -/
def pyRstripCRLF (s : Str) : Str :=
  (s.reverse.dropWhile (fun c => c = '\r' || c = '\n')).reverse

/-- Python `str.strip()`: drop leading and trailing whitespace. -/
def pyStrip (s : Str) : Str :=
  ((s.dropWhile isPySpace).reverse.dropWhile isPySpace).reverse

/-- The key extractor `extract_prejson`: decode the raw line with replacement, strip the line
terminator, and return the stripped text before the first `\x7b` (if any),
else the whole stripped line.

```python
line = line_bytes.decode('utf-8', errors='replace').rstrip('\r\n')
idx = line.find('{')
if idx != -1:
    return line[:idx].strip()
return line.strip()
``` -/
def extract_prejson (lineBytes : Line) : Str :=
  if '{' ∈ pyRstripCRLF (decodeU lineBytes) then
    pyStrip ((pyRstripCRLF (decodeU lineBytes)).takeWhile (fun c => c ≠ '{'))
  else pyStrip (pyRstripCRLF (decodeU lineBytes))

example : decodeU [104, 105] = ['h', 'i'] := by decide
example : decodeU [0xC3, 0xA9] = [Char.ofNat 0xE9] := by decide
example : decodeU [0xFF, 104] = [repl, 'h'] := by decide
example : decodeU [0xE2, 0x82] = [repl] := by decide
example : extract_prejson [104, 105, 32, 123, 34, 125, 10] = ['h', 'i'] := by decide
example : extract_prejson [32, 104, 105, 13, 10] = ['h', 'i'] := by decide
example : extract_prejson [0x1C, 97, 10] = ['a'] := by decide
example : extract_prejson [0x1C, 97, 123, 10] = ['a'] := by decide
example : extract_prejson [0xC2, 0xA0, 97, 0xC2, 0xA0, 10] = ['a'] := by decide
example : extract_prejson [0xE2, 0x80, 0x83, 97, 10] = ['a'] := by decide

/-! ### Python `str.replace` -/

/-- Loop of `replaceAll`; `fuel` only makes the recursion structural (each
step consumes at least one character of `s` and one fuel unit). -/
def replaceAllGo (pat sub : Str) : Nat → Str → Str
  | _, [] => []
  | 0, s => s
  | fuel + 1, c :: rest =>
    if pat ≠ [] ∧ pat.isPrefixOf (c :: rest) then
      sub ++ replaceAllGo pat sub fuel ((c :: rest).drop pat.length)
    else c :: replaceAllGo pat sub fuel rest

/-- Python `s.replace(pat, sub)`: replace every non-overlapping occurrence of
`pat`, scanning left to right. -/
def replaceAll (pat sub s : Str) : Str := replaceAllGo pat sub s.length s

example : replaceAll ".cdx.gz".toList [] "b-01.cdx.gz".toList = "b-01".toList := by decide
example : replaceAll ".cdx.gz".toList [] "a.cdx.gzb.cdx.gz".toList = ['a', 'b'] := by decide

/-! ### The main conversion: `cdxj_to_zipnum`

Modelled state of one run.  `gzip.compress(..., compresslevel=l)` is the
opaque `Config.compress`; `output_dir` never influences the recorded
basenames, so shard paths are modelled by their basenames. -/

/-- The run configuration that reaches the core loop. -/
structure Config where
  compress : List Byte → List Byte
  base : Str
  target : Nat

/-- One `.idx` record before rendering:
`(key, shard-name-no-ext, start_offset, comp_len, shard-number-1-based)`. -/
structure Entry where
  key : Str
  shardName : Str
  startOffset : Nat
  compLen : Nat
  shardNum : Nat
  deriving DecidableEq

/-- Default entry (for `getD`). -/
def dEntry : Entry := ⟨[], [], 0, 0, 0⟩

/-- Python `f"{n:02d}"`: decimal digits, zero-padded to width 2. -/
def pad2 (n : Nat) : Str := if n < 10 then '0' :: Nat.toDigits 10 n else Nat.toDigits 10 n

/-- The `.cdx.gz` extension. -/
def dotCdxGz : Str := ".cdx.gz".toList

/-- The numbered `get_shard_path(shard_num)` pattern, as a basename:
`f"{base}-{shard_num+1:02d}.cdx.gz"`. -/
def shardPathN (base : Str) (shardNum : Nat) : Str :=
  base ++ ['-'] ++ pad2 (shardNum + 1) ++ dotCdxGz

/-- The single-shard `get_shard_path(0, is_single=True)`: `f"{base}.cdx.gz"`. -/
def shardPathSingle (base : Str) : Str := base ++ dotCdxGz

/-- Render one idx record:
`f"{pre}\t{name}\t{start_offset}\t{comp_len}\t{shard_1based}\n"`. -/
def renderEntry (e : Entry) : Str :=
  e.key ++ ['\t'] ++ e.shardName ++ ['\t'] ++ Nat.toDigits 10 e.startOffset
    ++ ['\t'] ++ Nat.toDigits 10 e.compLen ++ ['\t'] ++ Nat.toDigits 10 e.shardNum ++ ['\n']

/-- The loop state of `cdxj_to_zipnum`: current shard number, the created
shard basenames, the bytes written to each shard so far, the in-memory idx
batch, and the strings already written to the idx file (kept as entry
batches; the written text of a batch is the join of its rendered records). -/
structure St where
  currentShard : Nat
  createdShards : List Str
  contents : List (List Byte)
  idxBuffer : List Entry
  idxFlushes : List (List Entry)

/-- The batch size `idx_buffer_size = 100`. -/
def idxBufferSize : Nat := 100

/-- State after opening the first shard, before any chunk is processed. -/
def initSt (base : Str) : St :=
  { currentShard := 0
    createdShards := [shardPathN base 0]
    contents := [[]]
    idxBuffer := []
    idxFlushes := [] }

/-- One idx flush: `idxf.write(''.join(idx_buffer)); idx_buffer.clear()`. -/
def flushIdx (st : St) : St :=
  { st with idxFlushes := st.idxFlushes ++ [st.idxBuffer], idxBuffer := [] }

/-- The write-and-record part of the loop body: record `start_offset`
(= the current shard file's size), compress the chunk's concatenated bytes,
append the compressed chunk to the current shard, and append the idx record
`(pre, shard_name_no_ext, start_offset, end_offset - start_offset,
current_shard + 1)` to the idx batch. -/
def appendChunkSt (cfg : Config) (st : St) (chunkLines : List Line) : St :=
  let startOffset := (st.contents.getD st.currentShard []).length
  let compressed := cfg.compress chunkLines.flatten
  let endOffset := startOffset + compressed.length
  { st with
    contents := st.contents.set st.currentShard
      ((st.contents.getD st.currentShard []) ++ compressed)
    idxBuffer := st.idxBuffer ++ [⟨extract_prejson (chunkLines.headD []),
      replaceAll dotCdxGz [] (st.createdShards.getD st.currentShard []),
      startOffset, endOffset - startOffset, st.currentShard + 1⟩] }

/-- The batch-full flush: `if len(idx_buffer) >= idx_buffer_size: write; clear`. -/
def maybeFlushFull (st : St) : St :=
  if st.idxBuffer.length ≥ idxBufferSize then flushIdx st else st

/-- The shard rollover: flush any pending idx records, close the current
shard, and open the next numbered shard. -/
def rolloverSt (base : Str) (st : St) : St :=
  let st3 := if st.idxBuffer ≠ [] then flushIdx st else st
  { st3 with
    currentShard := st3.currentShard + 1
    createdShards := st3.createdShards ++ [shardPathN base (st3.currentShard + 1)]
    contents := st3.contents ++ [[]] }

/-- The loop body of `cdxj_to_zipnum` for one chunk: write and record, flush
a full idx batch, and roll over once `end_offset >= target_shard_size`
(the `if` condition below is exactly `end_offset`). -/
def processChunk (cfg : Config) (st : St) (chunkLines : List Line) : St :=
  if (st.contents.getD st.currentShard []).length
      + (cfg.compress chunkLines.flatten).length ≥ cfg.target then
    rolloverSt cfg.base (maybeFlushFull (appendChunkSt cfg st chunkLines))
  else
    maybeFlushFull (appendChunkSt cfg st chunkLines)

/-- The trailing `if idx_buffer: idxf.write(...)` after the loop. -/
def finalizeIdx (st : St) : St := if st.idxBuffer ≠ [] then flushIdx st else st

/-- The post-run single-shard rename:
`if len(created_shards) == 1 and not created_shards[0].endswith(f"{base}.cdx.gz")`. -/
def finalShards (base : Str) (created : List Str) : List Str :=
  if created.length = 1 ∧ (shardPathSingle base).isSuffixOf (created.headD []) = false then
    [shardPathSingle base]
  else created

/-- The `.loc` records: `(basename.replace('.cdx.gz', ''), basename)` per
created shard, in order. -/
def locRecords (shards : List Str) : List (Str × Str) :=
  shards.map (fun p => (replaceAll dotCdxGz [] p, p))

/-- The observable output of one run. -/
structure Output where
  shards : List Str
  contents : List (List Byte)
  entries : List Entry
  idxWrites : List Str
  loc : List (Str × Str)

/-- All idx records held by a state, in emission order (flushed then buffered). -/
def entriesOf (st : St) : List Entry := st.idxFlushes.flatten ++ st.idxBuffer

/-- The whole run of `cdxj_to_zipnum` on an input byte stream. -/
def cdxj_to_zipnum (cfg : Config) (chunkSize : Int) (input : List Byte) : Output :=
  let chunks := stream_chunks_from_input (splitLines input) chunkSize
  let st := finalizeIdx (chunks.foldl (processChunk cfg) (initSt cfg.base))
  let shards := finalShards cfg.base st.createdShards
  { shards := shards
    contents := st.contents
    entries := st.idxFlushes.flatten
    idxWrites := st.idxFlushes.map (fun b => (b.map renderEntry).flatten)
    loc := locRecords shards }

/-- The `parse_args` validation: argparse rejects only a compress level outside
`range(1, 10)`; shard size and chunk size accept any integer. -/
def parse_args_accepts (_shardSizeMb _chunkSize compressLevel : Int) : Bool :=
  1 ≤ compressLevel ∧ compressLevel ≤ 9

/-! ### List index helpers -/

theorem getD_append_lt {α : Type _} (l m : List α) (d : α) (i : Nat) (h : i < l.length) :
    (l ++ m).getD i d = l.getD i d := List.getD_append l m d i h

theorem getD_append_len {α : Type _} (l : List α) (x d : α) :
    (l ++ [x]).getD l.length d = x := by simp [List.getD_append_right]

theorem getD_set_self {α : Type _} (l : List α) (i : Nat) (x d : α) (h : i < l.length) :
    (l.set i x).getD i d = x := by
  simp [List.getD_eq_getElem?_getD, List.getElem?_set_self, h]

theorem getD_set_ne {α : Type _} (l : List α) (i j : Nat) (x d : α) (h : i ≠ j) :
    (l.set i x).getD j d = l.getD j d := by
  simp [List.getD_eq_getElem?_getD, List.getElem?_set_ne h]

theorem extract_append {α : Type _} (a b : List α) (s l : Nat) (h : s + l ≤ a.length) :
    ((a ++ b).drop s).take l = (a.drop s).take l := by
  rw [List.drop_append_of_le_length (by omega), List.take_append_of_le_length (by simp; omega)]

/-! ### Run invariant -/

/-- The facts one idx entry records about its chunk, relative to a state:
the key comes from the chunk's first line, the shard number is a created
shard, the length is the compressed chunk's exact byte count, the byte range
`[startOffset, startOffset + compLen)` of that shard holds exactly the
compressed chunk, and the shard-name field is the numbered basename with the
`.cdx.gz` extension removed. -/
def EntryOk (cfg : Config) (st : St) (ch : List Line) (e : Entry) : Prop :=
  e.key = extract_prejson (ch.headD []) ∧
  1 ≤ e.shardNum ∧
  e.shardNum ≤ st.currentShard + 1 ∧
  e.compLen = (cfg.compress ch.flatten).length ∧
  e.startOffset + e.compLen ≤ (st.contents.getD (e.shardNum - 1) []).length ∧
  ((st.contents.getD (e.shardNum - 1) []).drop e.startOffset).take e.compLen
    = cfg.compress ch.flatten ∧
  e.shardName = replaceAll dotCdxGz [] (shardPathN cfg.base (e.shardNum - 1))

/-- Invariant of the main loop after processing `chunks`. -/
structure Inv (cfg : Config) (chunks : List (List Line)) (st : St) : Prop where
  hShardLen : st.createdShards.length = st.currentShard + 1
  hContLen : st.contents.length = st.currentShard + 1
  hNames : ∀ j, j < st.createdShards.length →
    st.createdShards.getD j [] = shardPathN cfg.base j
  hLen : (entriesOf st).length = chunks.length
  hEnt : ∀ i, i < chunks.length →
    EntryOk cfg st (chunks.getD i []) ((entriesOf st).getD i dEntry)

theorem entriesOf_flushIdx (st : St) : entriesOf (flushIdx st) = entriesOf st := by
  simp [entriesOf, flushIdx]

theorem inv_flushIdx {cfg : Config} {chunks : List (List Line)} {st : St}
    (h : Inv cfg chunks st) : Inv cfg chunks (flushIdx st) := by
  refine ⟨h.hShardLen, h.hContLen, h.hNames, ?_, ?_⟩
  · rw [entriesOf_flushIdx]; exact h.hLen
  · intro i hi; rw [entriesOf_flushIdx]; exact h.hEnt i hi

theorem inv_maybeFlushFull {cfg : Config} {chunks : List (List Line)} {st : St}
    (h : Inv cfg chunks st) : Inv cfg chunks (maybeFlushFull st) := by
  unfold maybeFlushFull
  split
  · exact inv_flushIdx h
  · exact h

theorem entriesOf_appendChunkSt (cfg : Config) (st : St) (c : List Line) :
    entriesOf (appendChunkSt cfg st c) = entriesOf st ++
      [⟨extract_prejson (c.headD []),
        replaceAll dotCdxGz [] (st.createdShards.getD st.currentShard []),
        (st.contents.getD st.currentShard []).length,
        (st.contents.getD st.currentShard []).length + (cfg.compress c.flatten).length
          - (st.contents.getD st.currentShard []).length,
        st.currentShard + 1⟩] := by
  simp [entriesOf, appendChunkSt]

theorem inv_appendChunkSt {cfg : Config} {chunks : List (List Line)} {st : St}
    (c : List Line) (h : Inv cfg chunks st) :
    Inv cfg (chunks ++ [c]) (appendChunkSt cfg st c) := by
  obtain ⟨h1, h2, h3, h4, h5⟩ := h
  have hcur : st.currentShard < st.contents.length := by omega
  refine ⟨h1, ?_, h3, ?_, ?_⟩
  · show (st.contents.set _ _).length = _
    rw [List.length_set]; exact h2
  · rw [entriesOf_appendChunkSt]
    simp [h4]
  · intro i hi
    rw [entriesOf_appendChunkSt]
    simp only [List.length_append, List.length_singleton] at hi
    by_cases hlt : i < chunks.length
    · rw [getD_append_lt _ _ _ _ (by omega : i < (entriesOf st).length),
        getD_append_lt _ _ _ _ hlt]
      obtain ⟨e1, e2, e3, e4, e5, e6, e7⟩ := h5 i hlt
      by_cases hsh : ((entriesOf st).getD i dEntry).shardNum - 1 = st.currentShard
      · rw [hsh] at e5 e6
        refine ⟨e1, e2, e3, e4, ?_, ?_, e7⟩
        · show _ ≤ ((st.contents.set _ _).getD _ []).length
          rw [hsh, getD_set_self _ _ _ _ hcur]
          simp only [List.length_append]
          omega
        · show (((st.contents.set _ _).getD _ []).drop _).take _ = _
          rw [hsh, getD_set_self _ _ _ _ hcur, extract_append _ _ _ _ e5]
          exact e6
      · refine ⟨e1, e2, e3, e4, ?_, ?_, e7⟩
        · show _ ≤ ((st.contents.set _ _).getD _ []).length
          rw [getD_set_ne _ _ _ _ _ (fun hh => hsh hh.symm)]
          exact e5
        · show (((st.contents.set _ _).getD _ []).drop _).take _ = _
          rw [getD_set_ne _ _ _ _ _ (fun hh => hsh hh.symm)]
          exact e6
    · have hieq : i = chunks.length := by omega
      subst hieq
      rw [← h4, getD_append_len, h4, getD_append_len]
      refine ⟨rfl, Nat.succ_le_succ (Nat.zero_le _), le_rfl, ?_, ?_, ?_, ?_⟩
      · show (st.contents.getD st.currentShard []).length
            + (cfg.compress c.flatten).length
            - (st.contents.getD st.currentShard []).length
          = (cfg.compress c.flatten).length
        omega
      · show (st.contents.getD st.currentShard []).length
            + ((st.contents.getD st.currentShard []).length
              + (cfg.compress c.flatten).length
              - (st.contents.getD st.currentShard []).length)
          ≤ ((st.contents.set st.currentShard
              ((st.contents.getD st.currentShard []) ++ cfg.compress c.flatten)).getD
                (st.currentShard + 1 - 1) []).length
        simp only [Nat.add_sub_cancel]
        rw [getD_set_self _ _ _ _ hcur]
        simp only [List.length_append]
        omega
      · show (((st.contents.set st.currentShard
              ((st.contents.getD st.currentShard []) ++ cfg.compress c.flatten)).getD
                (st.currentShard + 1 - 1) []).drop
                  (st.contents.getD st.currentShard []).length).take
            ((st.contents.getD st.currentShard []).length
              + (cfg.compress c.flatten).length
              - (st.contents.getD st.currentShard []).length)
          = cfg.compress c.flatten
        simp only [Nat.add_sub_cancel, Nat.add_sub_cancel_left]
        rw [getD_set_self _ _ _ _ hcur]
        simp
      · show replaceAll dotCdxGz [] (st.createdShards.getD st.currentShard [])
          = replaceAll dotCdxGz [] (shardPathN cfg.base (st.currentShard + 1 - 1))
        rw [h3 st.currentShard (by omega)]
        simp

theorem inv_advanceShard {cfg : Config} {chunks : List (List Line)} (st3 : St)
    (h : Inv cfg chunks st3) :
    Inv cfg chunks
      { st3 with
        currentShard := st3.currentShard + 1
        createdShards := st3.createdShards ++ [shardPathN cfg.base (st3.currentShard + 1)]
        contents := st3.contents ++ [[]] } := by
  obtain ⟨h1, h2, h3, h4, h5⟩ := h
  refine ⟨?_, ?_, ?_, h4, ?_⟩
  · show (st3.createdShards ++ [shardPathN cfg.base (st3.currentShard + 1)]).length
      = st3.currentShard + 1 + 1
    simp only [List.length_append, List.length_singleton]
    omega
  · show (st3.contents ++ [[]]).length = st3.currentShard + 1 + 1
    simp only [List.length_append, List.length_singleton]
    omega
  · intro j hj
    simp only [List.length_append, List.length_singleton] at hj
    by_cases hlt : j < st3.createdShards.length
    · show (st3.createdShards ++ [shardPathN cfg.base (st3.currentShard + 1)]).getD j []
        = shardPathN cfg.base j
      rw [getD_append_lt _ _ _ _ hlt]
      exact h3 j hlt
    · have hje : j = st3.createdShards.length := by omega
      subst hje
      show (st3.createdShards ++ [shardPathN cfg.base (st3.currentShard + 1)]).getD
          st3.createdShards.length [] = shardPathN cfg.base st3.createdShards.length
      rw [getD_append_len, h1]
  · intro i hi
    obtain ⟨e1, e2, e3, e4, e5, e6, e7⟩ := h5 i hi
    have hsh : ((entriesOf st3).getD i dEntry).shardNum - 1 < st3.contents.length := by omega
    refine ⟨e1, e2, ?_, e4, ?_, ?_, e7⟩
    · show ((entriesOf st3).getD i dEntry).shardNum ≤ st3.currentShard + 1 + 1
      omega
    · show _ ≤ ((st3.contents ++ [[]]).getD
          (((entriesOf st3).getD i dEntry).shardNum - 1) []).length
      rw [getD_append_lt _ _ _ _ hsh]
      exact e5
    · show (((st3.contents ++ [[]]).getD
          (((entriesOf st3).getD i dEntry).shardNum - 1) []).drop _).take _ = _
      rw [getD_append_lt _ _ _ _ hsh]
      exact e6

theorem inv_rolloverSt {cfg : Config} {chunks : List (List Line)} {st : St}
    (h : Inv cfg chunks st) : Inv cfg chunks (rolloverSt cfg.base st) := by
  unfold rolloverSt
  exact inv_advanceShard _ (by split; exacts [inv_flushIdx h, h])

theorem inv_processChunk {cfg : Config} {chunks : List (List Line)} {st : St}
    (c : List Line) (h : Inv cfg chunks st) :
    Inv cfg (chunks ++ [c]) (processChunk cfg st c) := by
  unfold processChunk
  split
  · exact inv_rolloverSt (inv_maybeFlushFull (inv_appendChunkSt c h))
  · exact inv_maybeFlushFull (inv_appendChunkSt c h)

theorem inv_init (cfg : Config) : Inv cfg [] (initSt cfg.base) := by
  refine ⟨rfl, rfl, ?_, rfl, ?_⟩
  · intro j hj
    simp only [initSt, List.length_singleton] at hj
    interval_cases j
    rfl
  · intro i hi
    simp at hi

theorem inv_foldl (cfg : Config) (cs : List (List Line)) :
    ∀ pre : List (List Line), ∀ st : St, Inv cfg pre st →
      Inv cfg (pre ++ cs) (cs.foldl (processChunk cfg) st) := by
  induction cs with
  | nil => intro pre st h; simpa using h
  | cons c rest ih =>
    intro pre st h
    have := ih (pre ++ [c]) (processChunk cfg st c) (inv_processChunk c h)
    simpa using this

/-- The invariant holds of every run of the main loop. -/
theorem inv_run (cfg : Config) (chunks : List (List Line)) :
    Inv cfg chunks (chunks.foldl (processChunk cfg) (initSt cfg.base)) := by
  simpa using inv_foldl cfg chunks [] (initSt cfg.base) (inv_init cfg)

theorem inv_finalizeIdx {cfg : Config} {chunks : List (List Line)} {st : St}
    (h : Inv cfg chunks st) : Inv cfg chunks (finalizeIdx st) := by
  unfold finalizeIdx
  split
  · exact inv_flushIdx h
  · exact h

theorem finalizeIdx_idxBuffer (st : St) : (finalizeIdx st).idxBuffer = [] := by
  by_cases hb : st.idxBuffer = []
  · simp [finalizeIdx, hb]
  · simp [finalizeIdx, hb, flushIdx]

theorem entriesOf_finalizeIdx (st : St) : entriesOf (finalizeIdx st) = entriesOf st := by
  by_cases hb : st.idxBuffer = []
  · simp [finalizeIdx, hb]
  · simp [finalizeIdx, hb, entriesOf_flushIdx]

/-- After the final flush, every emitted record has been written. -/
theorem finalizeIdx_flatten (st : St) :
    (finalizeIdx st).idxFlushes.flatten = entriesOf st := by
  have h1 := entriesOf_finalizeIdx st
  have h2 := finalizeIdx_idxBuffer st
  unfold entriesOf at h1
  rw [h2] at h1
  simpa using h1

/-! ### Field bookkeeping -/

theorem maybeFlushFull_createdShards (st : St) :
    (maybeFlushFull st).createdShards = st.createdShards := by
  unfold maybeFlushFull; split <;> rfl

theorem maybeFlushFull_currentShard (st : St) :
    (maybeFlushFull st).currentShard = st.currentShard := by
  unfold maybeFlushFull; split <;> rfl

theorem maybeFlushFull_contents (st : St) :
    (maybeFlushFull st).contents = st.contents := by
  unfold maybeFlushFull; split <;> rfl

theorem entriesOf_maybeFlushFull (st : St) :
    entriesOf (maybeFlushFull st) = entriesOf st := by
  unfold maybeFlushFull; split
  · exact entriesOf_flushIdx st
  · rfl

theorem rolloverSt_createdShards (base : Str) (st : St) :
    (rolloverSt base st).createdShards
      = st.createdShards ++ [shardPathN base (st.currentShard + 1)] := by
  unfold rolloverSt; split <;> rfl

theorem rolloverSt_currentShard (base : Str) (st : St) :
    (rolloverSt base st).currentShard = st.currentShard + 1 := by
  unfold rolloverSt; split <;> rfl

theorem rolloverSt_contents (base : Str) (st : St) :
    (rolloverSt base st).contents = st.contents ++ [[]] := by
  unfold rolloverSt; split <;> rfl

theorem rolloverSt_idxBuffer (base : Str) (st : St) :
    (rolloverSt base st).idxBuffer = [] := by
  unfold rolloverSt
  by_cases hb : st.idxBuffer = []
  · simp only [hb, ne_eq, not_true_eq_false, if_false]
  · simp only [hb, ne_eq, not_false_eq_true, if_true]
    rfl

theorem entriesOf_rolloverSt (base : Str) (st : St) :
    entriesOf (rolloverSt base st) = entriesOf st := by
  unfold rolloverSt
  by_cases hb : st.idxBuffer = []
  · simp only [hb, ne_eq, not_true_eq_false, if_false]
    simp [entriesOf, hb]
  · simp only [hb, ne_eq, not_false_eq_true, if_true]
    exact entriesOf_flushIdx st

theorem finalizeIdx_contents (st : St) : (finalizeIdx st).contents = st.contents := by
  unfold finalizeIdx; split <;> rfl

theorem finalizeIdx_createdShards (st : St) :
    (finalizeIdx st).createdShards = st.createdShards := by
  unfold finalizeIdx; split <;> rfl

theorem finalizeIdx_currentShard (st : St) :
    (finalizeIdx st).currentShard = st.currentShard := by
  unfold finalizeIdx; split <;> rfl

theorem finalizeIdx_of_empty (st : St) (h : st.idxBuffer = []) : finalizeIdx st = st := by
  simp [finalizeIdx, h]

/-- The loop state produced by a run, before the final flush. -/
def runFoldSt (cfg : Config) (chunkSize : Int) (input : List Byte) : St :=
  (stream_chunks_from_input (splitLines input) chunkSize).foldl
    (processChunk cfg) (initSt cfg.base)

theorem cdxj_entries_def (cfg : Config) (chunkSize : Int) (input : List Byte) :
    (cdxj_to_zipnum cfg chunkSize input).entries
      = (finalizeIdx (runFoldSt cfg chunkSize input)).idxFlushes.flatten := rfl

theorem cdxj_contents_def (cfg : Config) (chunkSize : Int) (input : List Byte) :
    (cdxj_to_zipnum cfg chunkSize input).contents
      = (finalizeIdx (runFoldSt cfg chunkSize input)).contents := rfl

theorem cdxj_shards_def (cfg : Config) (chunkSize : Int) (input : List Byte) :
    (cdxj_to_zipnum cfg chunkSize input).shards
      = finalShards cfg.base (finalizeIdx (runFoldSt cfg chunkSize input)).createdShards := rfl

theorem cdxj_loc_def (cfg : Config) (chunkSize : Int) (input : List Byte) :
    (cdxj_to_zipnum cfg chunkSize input).loc
      = locRecords (finalShards cfg.base
          (finalizeIdx (runFoldSt cfg chunkSize input)).createdShards) := rfl

theorem cdxj_idxWrites_def (cfg : Config) (chunkSize : Int) (input : List Byte) :
    (cdxj_to_zipnum cfg chunkSize input).idxWrites
      = (finalizeIdx (runFoldSt cfg chunkSize input)).idxFlushes.map
          (fun b => (b.map renderEntry).flatten) := rfl

theorem cdxj_entries_eq (cfg : Config) (chunkSize : Int) (input : List Byte) :
    (cdxj_to_zipnum cfg chunkSize input).entries
      = entriesOf (runFoldSt cfg chunkSize input) := by
  rw [cdxj_entries_def, finalizeIdx_flatten]

/-- The run invariant, at the end of a full run. -/
theorem inv_cdxj (cfg : Config) (chunkSize : Int) (input : List Byte) :
    Inv cfg (stream_chunks_from_input (splitLines input) chunkSize)
      (runFoldSt cfg chunkSize input) :=
  inv_run cfg (stream_chunks_from_input (splitLines input) chunkSize)

theorem flatten_map_flatten {α : Type _} (l : List (List (List α))) :
    (l.map List.flatten).flatten = l.flatten.flatten := by
  induction l with
  | nil => rfl
  | cons x xs ih => simp [ih]

/-- A small concrete configuration used to exercise the theorems on concrete
runs (identity compression, base `b`, huge shard threshold). -/
def cfgA : Config := ⟨id, ['b'], 1000000⟩

/-! ### Claim theorems -/

/-- C1: for every input byte stream and every positive chunk size, splitting
the stream into lines, grouping the lines into chunks, compressing each
chunk's concatenated bytes, decompressing each compressed chunk
independently and concatenating the results in chunk order reproduces the
original input byte-for-byte (for any compression with a left-inverse
decompression, as gzip is). -/
theorem C1_roundtrip (input : List Byte) (chunkSize : Int) (_hcs : 0 < chunkSize)
    (compress decompress : List Byte → List Byte)
    (hinv : ∀ bs, decompress (compress bs) = bs) :
    ((stream_chunks_from_input (splitLines input) chunkSize).map
      (fun ch => decompress (compress ch.flatten))).flatten = input := by
  have h1 : (stream_chunks_from_input (splitLines input) chunkSize).map
      (fun ch => decompress (compress ch.flatten))
      = (stream_chunks_from_input (splitLines input) chunkSize).map List.flatten := by
    simp [hinv]
  rw [h1, flatten_map_flatten, join_stream_chunks, join_splitLines]

theorem C1_roundtrip_witness :
    (0 : Int) < 2 ∧
      ((stream_chunks_from_input (splitLines [97, 10, 98]) 2).map
        (fun ch => id (id ch.flatten))).flatten = [97, 10, 98] :=
  ⟨by decide, C1_roundtrip [97, 10, 98] 2 (by decide) id id (fun _ => rfl)⟩

/-- C2: each emitted index record's start-offset equals the number of bytes
in its shard immediately before the compressed chunk is appended, its
compressed-length equals the exact byte length of that compressed chunk, and
start-offset plus compressed-length is the shard size immediately after the
append.  First conjunct: the step itself (the shard grows from `before` to
`before ++ compressed`, and the emitted record carries
`(|before|, |compressed|)`).  Second conjunct: consequently, in the final
output, the byte range `[startOffset, startOffset + compLen)` of the
recorded shard holds exactly that chunk's compressed bytes. -/
theorem C2_offsets (cfg : Config) (chunkSize : Int) (input : List Byte) :
    (∀ st : St, ∀ c : List Line, st.currentShard < st.contents.length →
      entriesOf (appendChunkSt cfg st c)
        = entriesOf st
          ++ [⟨extract_prejson (c.headD []),
              replaceAll dotCdxGz [] (st.createdShards.getD st.currentShard []),
              (st.contents.getD st.currentShard []).length,
              (cfg.compress c.flatten).length,
              st.currentShard + 1⟩]
      ∧ (appendChunkSt cfg st c).contents.getD st.currentShard []
          = (st.contents.getD st.currentShard []) ++ cfg.compress c.flatten)
    ∧ (∀ i, i < (cdxj_to_zipnum cfg chunkSize input).entries.length →
        ((cdxj_to_zipnum cfg chunkSize input).entries.getD i dEntry).compLen
          = (cfg.compress ((stream_chunks_from_input (splitLines input)
              chunkSize).getD i []).flatten).length
        ∧ ((cdxj_to_zipnum cfg chunkSize input).entries.getD i dEntry).startOffset
            + ((cdxj_to_zipnum cfg chunkSize input).entries.getD i dEntry).compLen
          ≤ ((cdxj_to_zipnum cfg chunkSize input).contents.getD
              (((cdxj_to_zipnum cfg chunkSize input).entries.getD i dEntry).shardNum - 1)
              []).length
        ∧ (((cdxj_to_zipnum cfg chunkSize input).contents.getD
              (((cdxj_to_zipnum cfg chunkSize input).entries.getD i dEntry).shardNum - 1)
              []).drop
              ((cdxj_to_zipnum cfg chunkSize input).entries.getD i dEntry).startOffset).take
            ((cdxj_to_zipnum cfg chunkSize input).entries.getD i dEntry).compLen
          = cfg.compress ((stream_chunks_from_input (splitLines input)
              chunkSize).getD i []).flatten) := by
  constructor
  · intro st c hcur
    constructor
    · rw [entriesOf_appendChunkSt]
      simp
    · show (st.contents.set st.currentShard _).getD st.currentShard [] = _
      rw [getD_set_self _ _ _ _ hcur]
  · intro i hi
    rw [cdxj_entries_eq] at hi ⊢
    rw [cdxj_contents_def, finalizeIdx_contents]
    have hInv := inv_cdxj cfg chunkSize input
    have hlt : i < (stream_chunks_from_input (splitLines input) chunkSize).length := by
      rw [← hInv.hLen]; exact hi
    obtain ⟨_, _, _, e4, e5, e6, _⟩ := hInv.hEnt i hlt
    exact ⟨e4, e5, e6⟩

theorem C2_offsets_witness :
    ((initSt ['b']).currentShard < (initSt ['b']).contents.length)
    ∧ (0 < (cdxj_to_zipnum cfgA 3 [120, 10]).entries.length)
    ∧ ((appendChunkSt cfgA (initSt ['b']) [[120, 10]]).contents.getD 0 []
        = ([] : List Byte) ++ id [120, 10]) := by
  refine ⟨by decide, by decide, ?_⟩
  exact ((C2_offsets cfgA 3 [120, 10]).1 (initSt ['b']) [[120, 10]] (by decide)).2

/-- C3: with a positive chunk size, the number of index records equals the
number of chunks, which is `ceil(total_lines / chunk_size)`; an empty input
yields zero records yet still exactly one (empty) shard file, because the
first shard is opened eagerly. -/
theorem C3_counts (cfg : Config) (chunkSize : Int) (input : List Byte)
    (h : 0 < chunkSize) :
    (cdxj_to_zipnum cfg chunkSize input).entries.length
        = (stream_chunks_from_input (splitLines input) chunkSize).length
    ∧ (cdxj_to_zipnum cfg chunkSize input).entries.length
        = ((splitLines input).length + chunkSize.toNat - 1) / chunkSize.toNat
    ∧ (input = [] →
        (cdxj_to_zipnum cfg chunkSize input).entries = []
        ∧ (cdxj_to_zipnum cfg chunkSize input).shards.length = 1
        ∧ (cdxj_to_zipnum cfg chunkSize input).contents = [[]]) := by
  have hlen : (cdxj_to_zipnum cfg chunkSize input).entries.length
      = (stream_chunks_from_input (splitLines input) chunkSize).length := by
    rw [cdxj_entries_eq]
    exact (inv_cdxj cfg chunkSize input).hLen
  refine ⟨hlen, ?_, ?_⟩
  · rw [hlen, stream_chunks_length _ _ h]
  · intro hempty
    subst hempty
    have hchunks : stream_chunks_from_input (splitLines ([] : List Byte)) chunkSize = [] := rfl
    refine ⟨?_, ?_, ?_⟩
    · rw [cdxj_entries_def]
      show (finalizeIdx ((stream_chunks_from_input (splitLines ([] : List Byte))
        chunkSize).foldl (processChunk cfg) (initSt cfg.base))).idxFlushes.flatten = []
      rw [hchunks]
      simp [finalizeIdx, initSt]
    · rw [cdxj_shards_def]
      show (finalShards cfg.base (finalizeIdx ((stream_chunks_from_input
        (splitLines ([] : List Byte)) chunkSize).foldl (processChunk cfg)
          (initSt cfg.base))).createdShards).length = 1
      rw [hchunks]
      show (finalShards cfg.base (finalizeIdx (initSt cfg.base)).createdShards).length = 1
      rw [finalizeIdx_of_empty _ rfl]
      show (finalShards cfg.base [shardPathN cfg.base 0]).length = 1
      unfold finalShards
      split <;> rfl
    · rw [cdxj_contents_def]
      show (finalizeIdx ((stream_chunks_from_input (splitLines ([] : List Byte))
        chunkSize).foldl (processChunk cfg) (initSt cfg.base))).contents = [[]]
      rw [hchunks]
      show (finalizeIdx (initSt cfg.base)).contents = [[]]
      rw [finalizeIdx_of_empty _ rfl]
      rfl

theorem C3_counts_witness :
    (0 : Int) < 3 ∧ (cdxj_to_zipnum cfgA 3 [120, 10]).entries.length = 1 :=
  ⟨by decide, (C3_counts cfgA 3 [120, 10] (by decide)).1.trans (by decide)⟩

/-- C6 counterexample: a chunk size of `0` is accepted by argument parsing
(argparse constrains only the compress level), and the run then proceeds and
produces output — here two index records for a two-line input — instead of
failing before any input is processed. -/
theorem C6_not_rejected :
    parse_args_accepts 100 0 6 = true
    ∧ (cdxj_to_zipnum cfgA 0 [97, 10, 98, 10]).entries.length = 2 := by
  constructor
  · rfl
  · decide

/-- C6 amended: a non-positive chunk size is not rejected; parsing accepts
it and the chunker proceeds, emitting one chunk per line (the
`len(chunk) >= chunk_size` test succeeds after every append). -/
theorem C6_amended (lines : List Line) (chunkSize : Int) (h : chunkSize ≤ 0) :
    parse_args_accepts 100 chunkSize 6 = true
    ∧ stream_chunks_from_input lines chunkSize = lines.map (fun l => [l]) := by
  refine ⟨rfl, ?_⟩
  induction lines with
  | nil => rfl
  | cons l rest ih =>
    show streamChunksAux chunkSize [] (l :: rest) = _
    rw [streamChunksAux]
    rw [if_pos (by simp; omega)]
    simp only [List.map_cons, List.nil_append]
    exact congrArg _ ih

theorem C6_amended_witness :
    (0 : Int) ≤ 0
    ∧ (parse_args_accepts 100 0 6 = true
      ∧ stream_chunks_from_input [[97], [98]] 0 = [[[97]], [[98]]]) :=
  ⟨by decide, C6_amended [[97], [98]] 0 (by decide)⟩

theorem flatten_map_render (fl : List (List Entry)) :
    (fl.map (fun b => (b.map renderEntry).flatten)).flatten
      = (fl.flatten.map renderEntry).flatten := by
  induction fl with
  | nil => rfl
  | cons b rest ih => simp [ih]

/-- C7: the idx file text produced by batched emission (batches of 100,
flushed when full and unconditionally at end of input) is byte-for-byte the
concatenation of each record rendered and written immediately; no record is
lost, duplicated, or reordered — the i-th written record is the record of
the i-th chunk. -/
theorem C7_batched_eq_immediate (cfg : Config) (chunkSize : Int) (input : List Byte) :
    ((cdxj_to_zipnum cfg chunkSize input).idxWrites).flatten
        = ((cdxj_to_zipnum cfg chunkSize input).entries.map renderEntry).flatten
    ∧ (cdxj_to_zipnum cfg chunkSize input).entries.length
        = (stream_chunks_from_input (splitLines input) chunkSize).length
    ∧ ∀ i, i < (cdxj_to_zipnum cfg chunkSize input).entries.length →
        ((cdxj_to_zipnum cfg chunkSize input).entries.getD i dEntry).key
          = extract_prejson
              (((stream_chunks_from_input (splitLines input) chunkSize).getD i []).headD []) := by
  refine ⟨?_, ?_, ?_⟩
  · rw [cdxj_idxWrites_def, cdxj_entries_def]
    exact flatten_map_render _
  · rw [cdxj_entries_eq]
    exact (inv_cdxj cfg chunkSize input).hLen
  · intro i hi
    rw [cdxj_entries_eq] at hi ⊢
    have hInv := inv_cdxj cfg chunkSize input
    have hlt : i < (stream_chunks_from_input (splitLines input) chunkSize).length := by
      rw [← hInv.hLen]; exact hi
    exact (hInv.hEnt i hlt).1

theorem C7_batched_eq_immediate_witness :
    (0 < (cdxj_to_zipnum cfgA 3 [120, 10]).entries.length)
    ∧ ((cdxj_to_zipnum cfgA 3 [120, 10]).entries.getD 0 dEntry).key = ['x'] :=
  ⟨by decide,
    ((C7_batched_eq_immediate cfgA 3 [120, 10]).2.2 0 (by decide)).trans (by decide)⟩

/-- C10: the key of every index record is obtained by applying the key
extractor to the first line of that record's chunk — and only to it: the key
is a function of `chunk.headD []` alone, and the chunk is nonempty, so this
is genuinely its first line. -/
theorem C10_key_from_first_line (cfg : Config) (chunkSize : Int) (input : List Byte)
    (i : Nat) (hi : i < (cdxj_to_zipnum cfg chunkSize input).entries.length) :
    ((cdxj_to_zipnum cfg chunkSize input).entries.getD i dEntry).key
      = extract_prejson
          (((stream_chunks_from_input (splitLines input) chunkSize).getD i []).headD [])
    ∧ (stream_chunks_from_input (splitLines input) chunkSize).getD i [] ≠ [] := by
  rw [cdxj_entries_eq] at hi
  have hInv := inv_cdxj cfg chunkSize input
  have hlt : i < (stream_chunks_from_input (splitLines input) chunkSize).length := by
    rw [← hInv.hLen]; exact hi
  constructor
  · rw [cdxj_entries_eq]
    exact (hInv.hEnt i hlt).1
  · have hmem : (stream_chunks_from_input (splitLines input) chunkSize).getD i []
        ∈ stream_chunks_from_input (splitLines input) chunkSize := by
      rw [List.getD_eq_getElem _ _ hlt]
      exact List.getElem_mem hlt
    exact stream_chunks_ne_nil _ _ _ hmem

theorem C10_key_from_first_line_witness :
    (0 < (cdxj_to_zipnum cfgA 3 [120, 10]).entries.length)
    ∧ ((cdxj_to_zipnum cfgA 3 [120, 10]).entries.getD 0 dEntry).key
        = extract_prejson
            (((stream_chunks_from_input (splitLines [120, 10]) 3).getD 0 []).headD []) :=
  ⟨by decide, (C10_key_from_first_line cfgA 3 [120, 10] 0 (by decide)).1⟩

/-- C4 exhibit: in a single-shard run (base `b`, one chunk, huge threshold)
the index record's shard-name field is `b-01` — the numbered name at write
time — while the only shard file in the final output is `b.cdx.gz` (renamed
after the index was written and never rewritten), whose
basename-without-extension is `b`.  The `.loc` file lists only `b`, so the
index's `b-01` matches no final shard. -/
theorem C4_idx_name_mismatch :
    ((cdxj_to_zipnum cfgA 3 [120, 10]).entries.getD 0 dEntry).shardName = "b-01".toList
    ∧ (cdxj_to_zipnum cfgA 3 [120, 10]).shards = ["b.cdx.gz".toList]
    ∧ replaceAll dotCdxGz [] "b.cdx.gz".toList = ['b']
    ∧ (cdxj_to_zipnum cfgA 3 [120, 10]).loc = [(['b'], "b.cdx.gz".toList)] := by
  refine ⟨?_, ?_, ?_, ?_⟩ <;> decide

/-- A configuration whose base name `1` defeats the rename guard:
`"1-01.cdx.gz".endswith("1.cdx.gz")` is true. -/
def cfg1 : Config := ⟨id, ['1'], 1000000⟩

/-- C5 exhibit: with base `1`, a run that produces exactly one shard leaves
it under the numbered name `1-01.cdx.gz` (the `endswith(f"{base}.cdx.gz")`
guard misfires), so a single-shard run keeps a numeric suffix, and the
location record's second field is that numbered basename — against both the
claim and the program's own docstring (`the file is named <base>.cdx.gz`). -/
theorem C5_single_shard_numbered :
    (cdxj_to_zipnum cfg1 3 [120, 10]).shards = ["1-01.cdx.gz".toList]
    ∧ (cdxj_to_zipnum cfg1 3 [120, 10]).shards.length = 1
    ∧ (cdxj_to_zipnum cfg1 3 [120, 10]).loc = [("1-01".toList, "1-01.cdx.gz".toList)] := by
  refine ⟨?_, ?_, ?_⟩ <;> decide

/-- C9: if the chunk whose write pushes the current shard to the size
threshold is the last chunk of the input, the rollover still fires: one
more numbered shard file is opened and stays empty, the shard list gains it
(so no single-shard rename happens), it gets its own location record, and no
index record references it (every record's 1-based shard number stays below
the new shard's). -/
theorem C9_trailing_rollover (cfg : Config) (chunkSize : Int) (input : List Byte)
    (pre : List (List Line)) (c : List Line)
    (hsplit : stream_chunks_from_input (splitLines input) chunkSize = pre ++ [c])
    (hroll : cfg.target ≤
      ((pre.foldl (processChunk cfg) (initSt cfg.base)).contents.getD
          (pre.foldl (processChunk cfg) (initSt cfg.base)).currentShard []).length
        + (cfg.compress c.flatten).length) :
    (cdxj_to_zipnum cfg chunkSize input).shards
        = (pre.foldl (processChunk cfg) (initSt cfg.base)).createdShards
          ++ [shardPathN cfg.base
              ((pre.foldl (processChunk cfg) (initSt cfg.base)).currentShard + 1)]
    ∧ (cdxj_to_zipnum cfg chunkSize input).shards.length
        = (pre.foldl (processChunk cfg) (initSt cfg.base)).currentShard + 2
    ∧ (cdxj_to_zipnum cfg chunkSize input).contents.getD
        ((pre.foldl (processChunk cfg) (initSt cfg.base)).currentShard + 1) [] = []
    ∧ (cdxj_to_zipnum cfg chunkSize input).loc.length
        = (cdxj_to_zipnum cfg chunkSize input).shards.length
    ∧ (cdxj_to_zipnum cfg chunkSize input).loc.getD
        ((pre.foldl (processChunk cfg) (initSt cfg.base)).currentShard + 1) ([], [])
        = (replaceAll dotCdxGz []
            (shardPathN cfg.base
              ((pre.foldl (processChunk cfg) (initSt cfg.base)).currentShard + 1)),
          shardPathN cfg.base
            ((pre.foldl (processChunk cfg) (initSt cfg.base)).currentShard + 1))
    ∧ (∀ i, i < (cdxj_to_zipnum cfg chunkSize input).entries.length →
        ((cdxj_to_zipnum cfg chunkSize input).entries.getD i dEntry).shardNum
          ≤ (pre.foldl (processChunk cfg) (initSt cfg.base)).currentShard + 1) := by
  have hInvPre : Inv cfg pre (pre.foldl (processChunk cfg) (initSt cfg.base)) :=
    inv_run cfg pre
  set stPre := pre.foldl (processChunk cfg) (initSt cfg.base) with hstPre
  have hfold : runFoldSt cfg chunkSize input = processChunk cfg stPre c := by
    unfold runFoldSt
    rw [hsplit, List.foldl_append]
    rfl
  have hPC : processChunk cfg stPre c
      = rolloverSt cfg.base (maybeFlushFull (appendChunkSt cfg stPre c)) := by
    unfold processChunk
    rw [if_pos hroll]
  set stMid := maybeFlushFull (appendChunkSt cfg stPre c) with hstMid
  set stFin := rolloverSt cfg.base stMid with hstFin
  have hMidCreated : stMid.createdShards = stPre.createdShards := by
    rw [hstMid, maybeFlushFull_createdShards]
    rfl
  have hMidCur : stMid.currentShard = stPre.currentShard := by
    rw [hstMid, maybeFlushFull_currentShard]
    rfl
  have hMidContentsLen : stMid.contents.length = stPre.currentShard + 1 := by
    rw [hstMid, maybeFlushFull_contents]
    show (stPre.contents.set _ _).length = _
    rw [List.length_set]
    exact hInvPre.hContLen
  have hFinCreated : stFin.createdShards
      = stPre.createdShards ++ [shardPathN cfg.base (stPre.currentShard + 1)] := by
    rw [hstFin, rolloverSt_createdShards, hMidCreated, hMidCur]
  have hFinContents : stFin.contents = stMid.contents ++ [[]] := by
    rw [hstFin, rolloverSt_contents]
  have hFinBuffer : stFin.idxBuffer = [] := rolloverSt_idxBuffer cfg.base stMid
  have hFinalize : finalizeIdx stFin = stFin := finalizeIdx_of_empty stFin hFinBuffer
  have hlen2 : stFin.createdShards.length = stPre.currentShard + 2 := by
    rw [hFinCreated]
    simp only [List.length_append, List.length_singleton]
    rw [hInvPre.hShardLen]
  have hNoRename : finalShards cfg.base stFin.createdShards = stFin.createdShards := by
    unfold finalShards
    rw [if_neg]
    intro hcond
    have := hcond.1
    omega
  have hShards : (cdxj_to_zipnum cfg chunkSize input).shards = stFin.createdShards := by
    rw [cdxj_shards_def, hfold, hPC, hFinalize, hNoRename]
  have hEntriesEq : (cdxj_to_zipnum cfg chunkSize input).entries
      = entriesOf stPre
        ++ [⟨extract_prejson (c.headD []),
            replaceAll dotCdxGz [] (stPre.createdShards.getD stPre.currentShard []),
            (stPre.contents.getD stPre.currentShard []).length,
            (stPre.contents.getD stPre.currentShard []).length
              + (cfg.compress c.flatten).length
              - (stPre.contents.getD stPre.currentShard []).length,
            stPre.currentShard + 1⟩] := by
    rw [cdxj_entries_eq, hfold, hPC, hstFin, entriesOf_rolloverSt,
      hstMid, entriesOf_maybeFlushFull, entriesOf_appendChunkSt]
  refine ⟨?_, ?_, ?_, ?_, ?_, ?_⟩
  · rw [hShards, hFinCreated]
  · rw [hShards, hlen2]
  · rw [cdxj_contents_def, hfold, hPC, hFinalize, hFinContents,
      ← hMidContentsLen, getD_append_len]
  · rw [cdxj_loc_def, hfold, hPC, hFinalize, hNoRename, hShards]
    simp [locRecords]
  · rw [cdxj_loc_def, hfold, hPC, hFinalize, hNoRename, hFinCreated]
    unfold locRecords
    rw [List.map_append]
    simp only [List.map_cons, List.map_nil]
    have hmaplen : (stPre.createdShards.map
        (fun p => (replaceAll dotCdxGz [] p, p))).length = stPre.currentShard + 1 := by
      rw [List.length_map, hInvPre.hShardLen]
    rw [← hmaplen, getD_append_len]
  · intro i hi
    rw [hEntriesEq] at hi ⊢
    simp only [List.length_append, List.length_singleton] at hi
    by_cases hlt : i < (entriesOf stPre).length
    · rw [getD_append_lt _ _ _ _ hlt]
      have hlt' : i < pre.length := by rw [← hInvPre.hLen]; exact hlt
      exact (hInvPre.hEnt i hlt').2.2.1
    · have hieq : i = (entriesOf stPre).length := by omega
      subst hieq
      rw [getD_append_len]

/-! ### C8: the key extractor -/

theorem toNat_charOfNat_valid (n : Nat) (h : n.isValidChar) :
    (Char.ofNat n).toNat = n := by
  simp [Char.ofNat, h, Char.ofNatAux, Char.toNat, UInt32.toNat, BitVec.toNat_ofNatLt]

theorem toNat_charOfNat_invalid (n : Nat) (h : ¬ n.isValidChar) :
    (Char.ofNat n).toNat = 0 := by
  simp [Char.ofNat, h, Char.toNat, UInt32.toNat]

/-- The character `Char.ofNat n` is `\x7b` exactly when `n` is 123 (an
invalid code point maps to the NUL character, which is not `\x7b` either). -/
theorem charOfNat_eq_brace (n : Nat) : Char.ofNat n = '{' ↔ n = 123 := by
  have hbrace : ('{' : Char).toNat = 123 := by decide
  constructor
  · intro he
    by_cases hv : n.isValidChar
    · have h1 := toNat_charOfNat_valid n hv
      rw [he] at h1
      omega
    · have h1 := toNat_charOfNat_invalid n hv
      rw [he] at h1
      omega
  · intro he
    subst he
    decide

theorem cont1Lo_ge (b : Nat) : 0x80 ≤ cont1Lo b := by
  unfold cont1Lo
  split
  · decide
  · split
    · decide
    · decide

/-- A byte stream decodes to text containing `\x7b` exactly when it contains
the byte `0x7b`: ASCII bytes always decode to themselves, no multi-byte or
replacement output is `\x7b`, and continuation handling only ever consumes
bytes `>= 0x80`. -/
theorem brace_decodeUGo : ∀ fuel : Nat, ∀ bs : List Nat, bs.length ≤ fuel →
    ((123 : Nat) ∈ bs ↔ '{' ∈ decodeUGo fuel bs) := by
  intro fuel
  induction fuel with
  | zero =>
    intro bs hbs
    have hnil : bs = [] := List.eq_nil_of_length_eq_zero (by omega)
    subst hnil
    simp [decodeUGo]
  | succ fuel ih =>
    intro bs hbs
    cases bs with
    | nil => simp [decodeUGo]
    | cons b rest =>
      have hrest : rest.length ≤ fuel := by
        simp only [List.length_cons] at hbs
        omega
      by_cases h1 : b < 0x80
      · simp only [decodeUGo, if_pos h1, List.mem_cons]
        rw [← ih rest hrest]
        constructor
        · rintro (rfl | hm)
          · exact Or.inl ((charOfNat_eq_brace 123).mpr rfl).symm
          · exact Or.inr hm
        · rintro (hch | hm)
          · have := (charOfNat_eq_brace b).mp hch.symm
            exact Or.inl this.symm
          · exact Or.inr hm
      · by_cases h2 : b < 0xC2
        · simp only [decodeUGo, if_neg h1, if_pos h2, List.mem_cons]
          rw [← ih rest hrest]
          simp [show ¬ ((123 : Nat) = b) by omega, show ¬ ('{' = repl) by decide]
        · by_cases h3 : b < 0xE0
          · -- two-byte lead
            cases rest with
            | nil =>
              simp only [decodeUGo, if_neg h1, if_neg h2, if_pos h3]
              simp [show ¬ ((123 : Nat) = b) by omega, show ('{' : Char) ≠ repl by decide]
            | cons c1 rest1 =>
              have hrest1 : rest1.length ≤ fuel := by
                simp only [List.length_cons] at hrest
                omega
              by_cases h4 : 0x80 ≤ c1 ∧ c1 ≤ 0xBF
              · simp only [decodeUGo, if_neg h1, if_neg h2, if_pos h3, if_pos h4,
                  List.mem_cons]
                rw [← ih rest1 hrest1]
                have hne : ¬ ('{' = Char.ofNat ((b - 0xC0) * 64 + (c1 - 0x80))) := by
                  intro hch
                  have := (charOfNat_eq_brace _).mp hch.symm
                  omega
                simp [show ¬ ((123 : Nat) = b) by omega,
                  show ¬ ((123 : Nat) = c1) by omega, hne]
              · simp only [decodeUGo, if_neg h1, if_neg h2, if_pos h3, if_neg h4,
                  List.mem_cons]
                rw [← ih (c1 :: rest1) hrest]
                simp [show ¬ ((123 : Nat) = b) by omega,
                  show ¬ ('{' = repl) by decide, List.mem_cons]
          · by_cases h5 : b < 0xF0
            · -- three-byte lead
              cases rest with
              | nil =>
                simp only [decodeUGo, if_neg h1, if_neg h2, if_neg h3, if_pos h5]
                simp [show ¬ ((123 : Nat) = b) by omega,
                  show ('{' : Char) ≠ repl by decide]
              | cons c1 rest1 =>
                have hrest1 : rest1.length ≤ fuel := by
                  simp only [List.length_cons] at hrest
                  omega
                have hLo := cont1Lo_ge b
                by_cases h4 : cont1Lo b ≤ c1 ∧ c1 ≤ cont1Hi b
                · cases rest1 with
                  | nil =>
                    simp only [decodeUGo, if_neg h1, if_neg h2, if_neg h3, if_pos h5,
                      if_pos h4]
                    simp [show ¬ ((123 : Nat) = b) by omega,
                      show ¬ ((123 : Nat) = c1) by omega,
                      show ('{' : Char) ≠ repl by decide]
                  | cons c2 rest2 =>
                    have hrest2 : rest2.length ≤ fuel := by
                      simp only [List.length_cons] at hrest
                      omega
                    by_cases h6 : 0x80 ≤ c2 ∧ c2 ≤ 0xBF
                    · simp only [decodeUGo, if_neg h1, if_neg h2, if_neg h3, if_pos h5,
                        if_pos h4, if_pos h6, List.mem_cons]
                      rw [← ih rest2 hrest2]
                      have hcp : 128 ≤ (b - 0xE0) * 4096 + (c1 - 0x80) * 64 + (c2 - 0x80) := by
                        by_cases hbe : b = 0xE0
                        · subst hbe
                          have hc1 := h4.1
                          simp [cont1Lo] at hc1
                          omega
                        · have hb1 : 0xE1 ≤ b := by omega
                          omega
                      have hne : ¬ ('{' = Char.ofNat
                          ((b - 0xE0) * 4096 + (c1 - 0x80) * 64 + (c2 - 0x80))) := by
                        intro hch
                        have := (charOfNat_eq_brace _).mp hch.symm
                        omega
                      simp [show ¬ ((123 : Nat) = b) by omega,
                        show ¬ ((123 : Nat) = c1) by omega,
                        show ¬ ((123 : Nat) = c2) by omega, hne]
                    · simp only [decodeUGo, if_neg h1, if_neg h2, if_neg h3, if_pos h5,
                        if_pos h4, if_neg h6, List.mem_cons]
                      rw [← ih (c2 :: rest2) (by
                        simp only [List.length_cons] at hrest ⊢
                        omega)]
                      simp [show ¬ ((123 : Nat) = b) by omega,
                        show ¬ ((123 : Nat) = c1) by omega,
                        show ¬ ('{' = repl) by decide, List.mem_cons]
                · simp only [decodeUGo, if_neg h1, if_neg h2, if_neg h3, if_pos h5,
                    if_neg h4, List.mem_cons]
                  rw [← ih (c1 :: rest1) hrest]
                  simp [show ¬ ((123 : Nat) = b) by omega,
                    show ¬ ('{' = repl) by decide, List.mem_cons]
            · by_cases h7 : b < 0xF5
              · -- four-byte lead
                cases rest with
                | nil =>
                  simp only [decodeUGo, if_neg h1, if_neg h2, if_neg h3, if_neg h5,
                    if_pos h7]
                  simp [show ¬ ((123 : Nat) = b) by omega,
                    show ('{' : Char) ≠ repl by decide]
                | cons c1 rest1 =>
                  have hLo := cont1Lo_ge b
                  by_cases h4 : cont1Lo b ≤ c1 ∧ c1 ≤ cont1Hi b
                  · cases rest1 with
                    | nil =>
                      simp only [decodeUGo, if_neg h1, if_neg h2, if_neg h3, if_neg h5,
                        if_pos h7, if_pos h4]
                      simp [show ¬ ((123 : Nat) = b) by omega,
                        show ¬ ((123 : Nat) = c1) by omega,
                        show ('{' : Char) ≠ repl by decide]
                    | cons c2 rest2 =>
                      by_cases h6 : 0x80 ≤ c2 ∧ c2 ≤ 0xBF
                      · cases rest2 with
                        | nil =>
                          simp only [decodeUGo, if_neg h1, if_neg h2, if_neg h3,
                            if_neg h5, if_pos h7, if_pos h4, if_pos h6]
                          simp [show ¬ ((123 : Nat) = b) by omega,
                            show ¬ ((123 : Nat) = c1) by omega,
                            show ¬ ((123 : Nat) = c2) by omega,
                            show ('{' : Char) ≠ repl by decide]
                        | cons c3 rest3 =>
                          have hrest3 : rest3.length ≤ fuel := by
                            simp only [List.length_cons] at hrest
                            omega
                          by_cases h8 : 0x80 ≤ c3 ∧ c3 ≤ 0xBF
                          · simp only [decodeUGo, if_neg h1, if_neg h2, if_neg h3,
                              if_neg h5, if_pos h7, if_pos h4, if_pos h6, if_pos h8,
                              List.mem_cons]
                            rw [← ih rest3 hrest3]
                            have hcp : 128 ≤ (b - 0xF0) * 262144 + (c1 - 0x80) * 4096
                                + (c2 - 0x80) * 64 + (c3 - 0x80) := by
                              by_cases hbf : b = 0xF0
                              · subst hbf
                                have hc1 := h4.1
                                simp [cont1Lo] at hc1
                                omega
                              · have hb1 : 0xF1 ≤ b := by omega
                                omega
                            have hne : ¬ ('{' = Char.ofNat ((b - 0xF0) * 262144
                                + (c1 - 0x80) * 4096 + (c2 - 0x80) * 64 + (c3 - 0x80))) := by
                              intro hch
                              have := (charOfNat_eq_brace _).mp hch.symm
                              omega
                            simp [show ¬ ((123 : Nat) = b) by omega,
                              show ¬ ((123 : Nat) = c1) by omega,
                              show ¬ ((123 : Nat) = c2) by omega,
                              show ¬ ((123 : Nat) = c3) by omega, hne]
                          · simp only [decodeUGo, if_neg h1, if_neg h2, if_neg h3,
                              if_neg h5, if_pos h7, if_pos h4, if_pos h6, if_neg h8,
                              List.mem_cons]
                            rw [← ih (c3 :: rest3) (by
                              simp only [List.length_cons] at hrest ⊢
                              omega)]
                            simp [show ¬ ((123 : Nat) = b) by omega,
                              show ¬ ((123 : Nat) = c1) by omega,
                              show ¬ ((123 : Nat) = c2) by omega,
                              show ¬ ('{' = repl) by decide, List.mem_cons]
                      · simp only [decodeUGo, if_neg h1, if_neg h2, if_neg h3,
                          if_neg h5, if_pos h7, if_pos h4, if_neg h6, List.mem_cons]
                        rw [← ih (c2 :: rest2) (by
                          simp only [List.length_cons] at hrest ⊢
                          omega)]
                        simp [show ¬ ((123 : Nat) = b) by omega,
                          show ¬ ((123 : Nat) = c1) by omega,
                          show ¬ ('{' = repl) by decide, List.mem_cons]
                  · simp only [decodeUGo, if_neg h1, if_neg h2, if_neg h3, if_neg h5,
                      if_pos h7, if_neg h4, List.mem_cons]
                    rw [← ih (c1 :: rest1) hrest]
                    simp [show ¬ ((123 : Nat) = b) by omega,
                      show ¬ ('{' = repl) by decide, List.mem_cons]
              · simp only [decodeUGo, if_neg h1, if_neg h2, if_neg h3, if_neg h5,
                  if_neg h7, List.mem_cons]
                rw [← ih rest hrest]
                simp [show ¬ ((123 : Nat) = b) by omega,
                  show ¬ ('{' = repl) by decide]

theorem mem_dropWhile_of_not {α : Type _} (p : α → Bool) (c : α) (hc : p c = false) :
    ∀ l : List α, c ∈ l → c ∈ l.dropWhile p := by
  intro l hl
  induction l with
  | nil => simp at hl
  | cons a l ih =>
    cases hpa : p a
    · simpa [List.dropWhile_cons, hpa] using hl
    · simp only [List.dropWhile_cons, hpa, if_true]
      rcases List.mem_cons.mp hl with rfl | hm
      · rw [hpa] at hc
        cases hc
      · exact ih hm

theorem mem_pyRstripCRLF (c : Char) (hc : (c = '\r' || c = '\n') = false) (s : Str) :
    c ∈ pyRstripCRLF s ↔ c ∈ s := by
  unfold pyRstripCRLF
  rw [List.mem_reverse]
  constructor
  · intro h
    have hsub := List.dropWhile_sublist (l := s.reverse)
      (p := fun c => c = '\r' || c = '\n')
    have := hsub.subset h
    simpa using this
  · intro h
    exact mem_dropWhile_of_not _ c hc s.reverse (by simpa using h)

theorem mem_of_mem_pyStrip (c : Char) (s : Str) (h : c ∈ pyStrip s) : c ∈ s := by
  unfold pyStrip at h
  rw [List.mem_reverse] at h
  have h1 := (List.dropWhile_sublist (l := (s.dropWhile isPySpace).reverse)
    (p := isPySpace)).subset h
  rw [List.mem_reverse] at h1
  exact (List.dropWhile_sublist (l := s) (p := isPySpace)).subset h1

/-- C8: the key extractor is total and deterministic over raw bytes (it is a
function); the decoded line contains `\x7b` exactly when the raw line
contains byte `0x7b`; when it does, the key is the stripped text strictly
before the first `\x7b` of the terminator-stripped decoded line, otherwise
the whole stripped line; and the key never contains `\x7b`. -/
theorem C8_extract_key (lineBytes : Line) :
    ((0x7B : Nat) ∈ lineBytes ↔ '{' ∈ decodeU lineBytes)
    ∧ ((0x7B : Nat) ∈ lineBytes →
        extract_prejson lineBytes
          = pyStrip ((pyRstripCRLF (decodeU lineBytes)).takeWhile (fun c => c ≠ '{')))
    ∧ ((0x7B : Nat) ∉ lineBytes →
        extract_prejson lineBytes = pyStrip (pyRstripCRLF (decodeU lineBytes)))
    ∧ '{' ∉ extract_prejson lineBytes := by
  have hbr : (0x7B : Nat) ∈ lineBytes ↔ '{' ∈ decodeU lineBytes :=
    brace_decodeUGo lineBytes.length lineBytes le_rfl
  have hline : '{' ∈ pyRstripCRLF (decodeU lineBytes) ↔ '{' ∈ decodeU lineBytes :=
    mem_pyRstripCRLF '{' (by decide) _
  refine ⟨hbr, ?_, ?_, ?_⟩
  · intro h
    rw [extract_prejson, if_pos (hline.mpr (hbr.mp h))]
  · intro h
    rw [extract_prejson, if_neg (fun hmem => h (hbr.mpr (hline.mp hmem)))]
  · by_cases hmem : '{' ∈ pyRstripCRLF (decodeU lineBytes)
    · rw [extract_prejson, if_pos hmem]
      intro hin
      have h1 := mem_of_mem_pyStrip _ _ hin
      have h2 := List.mem_takeWhile_imp h1
      simp at h2
    · rw [extract_prejson, if_neg hmem]
      intro hin
      exact hmem (mem_of_mem_pyStrip _ _ hin)

theorem C8_extract_key_witness :
    ((0x7B : Nat) ∈ ([104, 123, 10] : Line))
    ∧ extract_prejson [104, 123, 10]
        = pyStrip ((pyRstripCRLF (decodeU [104, 123, 10])).takeWhile (fun c => c ≠ '{')) :=
  ⟨by decide, (C8_extract_key [104, 123, 10]).2.1 (by decide)⟩

theorem C9_trailing_rollover_witness :
    (stream_chunks_from_input (splitLines [120, 10]) 1 = [] ++ [[[120, 10]]])
    ∧ ((⟨id, ['b'], 1⟩ : Config).target ≤
        ((([] : List (List Line)).foldl (processChunk ⟨id, ['b'], 1⟩)
            (initSt ['b'])).contents.getD
          (([] : List (List Line)).foldl (processChunk ⟨id, ['b'], 1⟩)
            (initSt ['b'])).currentShard []).length
          + ((⟨id, ['b'], 1⟩ : Config).compress ([[120, 10]] : List Line).flatten).length)
    ∧ (cdxj_to_zipnum ⟨id, ['b'], 1⟩ 1 [120, 10]).shards.length = 2 := by
  refine ⟨by decide, by decide, ?_⟩
  exact (C9_trailing_rollover ⟨id, ['b'], 1⟩ 1 [120, 10] [] [[120, 10]]
    (by decide) (by decide)).2.1

end CdxjZipnum
